import Mathlib

/-!
Shallow embedding of the merlin dataloader core
(`src/merlin/loader/loader_base.py`): the chunk-assembly / spill logic of
`ChunkQueue`, the batch-segmentation and sparse-materialization helpers of
`LoaderBase`, the partition-sharding computation, the constructor-time schema
validation, and the stop/iterate state machine.  Tables are modelled as lists
of rows (row contents are irrelevant to row accounting, so rows are an
arbitrary type `α`); machine integers are `Nat` (all quantities involved are
non-negative counts and Python `int` is unbounded).
-/

namespace Dataloader


/-- `_num_steps(num_samples, step_size)` = `math.ceil(num_samples / step_size)`
(loader_base.py lines 46-47), as exact ceiling division on naturals. -/
def numSteps (numSamples stepSize : Nat) : Nat :=
  (numSamples + stepSize - 1) / stepSize

/-- `ChunkQueue.get_batch_div_chunk(chunks, batch_size)` (lines 732-741):
`spill_idx = int(len / batch_size) * batch_size`; returns the first
`spill_idx` rows and the remaining rows (index resetting does not change row
content or order). -/
def get_batch_div_chunk (chunks : List α) (batchSize : Nat) :
    List α × List α :=
  let spillIdx := chunks.length / batchSize * batchSize
  (chunks.take spillIdx, chunks.drop spillIdx)

/-- `LoaderBase._get_segment_lengths(num_samples)` (lines 437-446):
`num_full_batches = _num_steps(num_samples, batch_size) - 1` copies of
`batch_size` followed by the remainder `num_samples - num_full_batches *
batch_size`.  (For `num_samples = 0` the Python `num_full_batches` is `-1`,
outside the domain of this `Nat` embedding; the pipeline only ever calls this with
a non-empty chunk, and all theorems assume `1 ≤ num_samples`.) -/
def get_segment_lengths (batchSize numSamples : Nat) : List Nat :=
  let numFullBatches := numSteps numSamples batchSize - 1
  List.replicate numFullBatches batchSize ++
    [numSamples - numFullBatches * batchSize]

/-- `LoaderBase.__len__` (lines 205-209): `_num_steps(buff_len, batch_size)`,
minus one when `drop_last` and `buff_len % batch_size > 0`. -/
def loaderLen (buffLen batchSize : Nat) (dropLast : Bool) : Nat :=
  let batches := numSteps buffLen batchSize
  if dropLast ∧ buffLen % batchSize > 0 then batches - 1 else batches

/-- The partition slice a given rank receives in
`LoaderBase._indices_for_process` (lines 231-242): with
`indices = cp.arange(P)` (line 77) and `per_worker = _num_steps(P, S)`,
the slice `indices[r*per_worker : r*per_worker + per_worker]`. -/
def indices_block (P S r : Nat) : List Nat :=
  let perWorker := numSteps P S
  ((List.range P).drop (r * perWorker)).take perWorker

/-- `LoaderBase._indices_for_process` (lines 231-242): raises `IndexError`
(`none`) when there are fewer partitions than processes, otherwise returns
the contiguous slice of this rank of the partition indices. -/
def indices_for_process (P S r : Nat) : Option (List Nat) :=
  if P < S then none else some (indices_block P S r)

/-- `ChunkQueue.batch` (lines 661-678): groups the stream of partitions into
lists of `num_parts` consecutive partitions, the last group possibly smaller
(with `num_parts = 0`, Python would accumulate the whole stream into one
final group, which this definition also does). -/
def batchGen (numParts : Nat) (l : List α) : List (List α) :=
  if l.isEmpty then []
  else if numParts = 0 then [l]
  else l.take numParts :: batchGen numParts (l.drop numParts)
termination_by l.length
decreasing_by
  rename_i h hn
  simp only [List.isEmpty_iff] at h
  have hpos : 0 < l.length := List.length_pos.mpr h
  simp only [List.length_drop]
  omega

/-- One round of `ChunkQueue.chunk_logic` plus its final-spill flush
(lines 680-707), modelled on rows: each group of partitions is concatenated
behind the carried spill, split at a multiple of `batch_size` by
`get_batch_div_chunk`, the aligned head (when non-empty) emitted and the
tail carried as the new spill; at end of stream the spill is emitted iff it
is non-empty and `drop_last` is off.  Run without cooperative stop, and with
`shuffle_df` (an external row permutation) disabled, as in the synthetic setting of the claim. -/
def chunkLogicAux (b : Nat) (dropLast : Bool) (spill : Option (List α)) :
    List (List (List α)) → List (List α)
  | [] =>
    match spill with
    | none => []
    | some s => if dropLast = false ∧ s.isEmpty = false then [s] else []
  | g :: gs =>
    let withSpill :=
      match spill with
      | some s => if s.isEmpty then g else s :: g
      | none => g
    let merged := withSpill.flatten
    let headTail := get_batch_div_chunk merged b
    (if 0 < headTail.1.length then [headTail.1] else []) ++
      chunkLogicAux b dropLast (some headTail.2) gs

/-- The chunks emitted on the queue during one epoch of
`ChunkQueue.chunk_logic` (lines 680-707), starting with no spill. -/
def chunkLogic (b : Nat) (dropLast : Bool) (numParts : Nat)
    (parts : List (List α)) : List (List α) :=
  chunkLogicAux b dropLast none (batchGen numParts parts)

/-- Row-wise effect of the `_split_fn` slicing in `LoaderBase.make_tensors`
(lines 348, 367-378): a list cut into consecutive segments of the given
lengths. -/
def splitSegments : List Nat → List α → List (List α)
  | [], _ => []
  | s :: ss, l => l.take s :: splitSegments ss (l.drop s)

/-- The rows of each batch `LoaderBase.make_tensors` yields for one chunk
(lines 331-435): the rows of the chunk cut at the `_get_segment_lengths` split
points (the per-column tensor structure carries the same row segments). -/
def make_tensors_rows (b : Nat) (chunk : List α) : List (List α) :=
  splitSegments (get_segment_lengths b chunk.length) chunk

/-- All batches yielded in one epoch: each chunk emitted by `chunk_logic`
is converted by `make_tensors` into its per-batch row segments. -/
def epochBatches (b : Nat) (dropLast : Bool) (numParts : Nat)
    (parts : List (List α)) : List (List α) :=
  (chunkLogic b dropLast numParts parts).flatMap (make_tensors_rows b)

/-- An element of the handoff queue `ChunkQueue.q_out`: either a packet (the
per-chunk list of batches from `make_tensors`) or an exception object put by
`load_chunks`. -/
inductive QItem (ε π : Type) : Type
  | pkt (p : π)
  | exn (e : ε)
deriving DecidableEq

/-- The consumer-visible state of a `LoaderBase`: `_workers` (number of live
worker threads, `none` once joined and cleared), the `_stop_event`
flag of the `ChunkQueue`, the queue contents, the cached `_batch_itr` (remaining
batches of the fetched chunk), and `num_rows_processed`. -/
structure LoaderState (ε β : Type) : Type where
  workers : Option Nat
  buffStopped : Bool
  queue : List (QItem ε (List β))
  batchItr : Option (List β)
  numRowsProcessed : Nat
deriving DecidableEq

/-- `LoaderBase.stop` (lines 217-229): when workers exist, set the stop event of the buffer and clear its queue (`ChunkQueue.stop`, lines 722-727, skipped if
already stopped), join and drop the workers, clear the queue again; always
reset `_batch_itr`. -/
def stopFn (s : LoaderState ε β) : LoaderState ε β :=
  match s.workers with
  | some _ =>
    let s1 := if s.buffStopped then s
      else { s with buffStopped := true, queue := [] }
    { s1 with workers := none, queue := [], batchItr := none }
  | none => { s with batchItr := none }

/-- `LoaderBase.__iter__` (lines 253-271): `stop()`, reset
`num_rows_processed` to 0, restart the buffer if stopped
(`ChunkQueue.start`, lines 729-730), and launch one fresh worker thread
(the asynchronous queue filling by the worker is outside this one-step state
transition). -/
def iterFn (s : LoaderState ε β) : LoaderState ε β :=
  let s1 := stopFn s
  let s2 := { s1 with numRowsProcessed := 0 }
  let s3 := if s2.buffStopped then { s2 with buffStopped := false } else s2
  { s3 with workers := some 1 }

/-- One round of `ChunkQueue.chunk_logic` with a fallible conversion
(`make_tensors` and the dataframe operations can raise): returns the packets
successfully enqueued, in order, and the first exception raised, if any
(after which the loop stops). -/
def chunkLogicRun (mk : List α → Except ε π) (b : Nat) (dropLast : Bool)
    (spill : Option (List α)) :
    List (List (List α)) → List π × Option ε
  | [] =>
    match spill with
    | none => ([], none)
    | some s =>
      if dropLast = false ∧ s.isEmpty = false then
        match mk s with
        | .ok p => ([p], none)
        | .error e => ([], some e)
      else ([], none)
  | g :: gs =>
    let withSpill :=
      match spill with
      | some s => if s.isEmpty then g else s :: g
      | none => g
    let merged := withSpill.flatten
    let headTail := get_batch_div_chunk merged b
    if 0 < headTail.1.length then
      match mk headTail.1 with
      | .ok p =>
        let rest := chunkLogicRun mk b dropLast (some headTail.2) gs
        (p :: rest.1, rest.2)
      | .error e => ([], some e)
    else chunkLogicRun mk b dropLast (some headTail.2) gs

/-- `ChunkQueue.load_chunks` (lines 709-719): run `chunk_logic`; any
exception escaping the loop is caught and the exception object itself is
put on the queue in place of a batch list, after which the worker exits. -/
def load_chunks (mk : List α → Except ε π) (b : Nat) (dropLast : Bool)
    (numParts : Nat) (parts : List (List α)) : List (QItem ε π) :=
  let run := chunkLogicRun mk b dropLast none (batchGen numParts parts)
  run.1.map QItem.pkt ++
    (match run.2 with
      | some e => [QItem.exn e]
      | none => [])

/-- `LoaderBase._fetch_chunk` (lines 282-287): dequeue the next item
(blocking — `none` models an empty queue, on which `get` would block); if it
is an exception, call `stop()` and re-raise it (the second component);
otherwise cache the batches of the chunk as the new `_batch_itr`. -/
def fetch_chunk (s : LoaderState ε β) :
    Option (LoaderState ε β × Option ε) :=
  match s.queue with
  | [] => none
  | QItem.exn e :: rest => some (stopFn { s with queue := rest }, some e)
  | QItem.pkt p :: rest =>
    some ({ s with queue := rest, batchItr := some p }, none)

/-- Role tags of a column (`merlin.schema.Tags`): only the three roles the
loader selects on (lines 120-122), plus a catch-all for any other tag. -/
inductive ColTag : Type
  | categorical
  | continuous
  | target
  | other
deriving DecidableEq

/-- The per-column schema data the constructor consumes (lines 96-116):
dtype (as an opaque id), `is_list`, `is_ragged`, the optional
`value_count` bounds `(min, max)`, and the role tags. -/
structure ColSpec : Type where
  dtype : Nat
  isList : Bool
  isRagged : Bool
  valueCount : Option (Nat × Nat)
  tags : List ColTag
deriving DecidableEq

/-- The loader attributes built by the constructor loop (lines 91-116):
`dtype_reverse_map` (dtype → column names, in insertion order),
`sparse_names`, `sparse_max` and `sparse_as_dense`. -/
structure LoaderCfg : Type where
  dtypeReverseMap : List (Nat × List String)
  sparseNames : List String
  sparseMax : List (String × Nat)
  sparseAsDense : List String
deriving DecidableEq

/-- The constructor-time validation failures (lines 111-116 and 124-129):
the ValueError for a dense list column with no `value_count`
("Dense column ... does not have the max value_count defined in the
schema"), and the ValueError for an empty `dtype_reverse_map` ("Neither
Categorical or Continuous columns were found by the dataloader. ..."). -/
inductive InitError : Type
  | denseMissingValueCount (col : String)
  | noColumns
deriving DecidableEq

/-- Appending a column name under its dtype key in `dtype_reverse_map`
(lines 97-100). -/
def addDtype (m : List (Nat × List String)) (d : Nat) (n : String) :
    List (Nat × List String) :=
  match m with
  | [] => [(d, [n])]
  | (d', ns) :: rest =>
    if d' = d then (d', ns ++ [n]) :: rest else (d', ns) :: addDtype rest d n

/-- The per-column constructor loop (lines 96-116): record the dtype;
for a list column record it in `sparse_names`, record `value_count.max` in
`sparse_max` when `value_count` exists with `min == max`, and for a
declared-dense (non-ragged) column record it in `sparse_as_dense` and fail
when it has no `value_count`. -/
def initColumns : List (String × ColSpec) → LoaderCfg →
    Except InitError LoaderCfg
  | [], cfg => .ok cfg
  | (name, spec) :: rest, cfg =>
    let cfg1 := { cfg with
      dtypeReverseMap := addDtype cfg.dtypeReverseMap spec.dtype name }
    if spec.isList then
      let cfg2 := { cfg1 with sparseNames := cfg1.sparseNames ++ [name] }
      let cfg3 :=
        match spec.valueCount with
        | some (mn, mx) =>
          if mn = mx then { cfg2 with sparseMax := cfg2.sparseMax ++ [(name, mx)] }
          else cfg2
        | none => cfg2
      if spec.isRagged then initColumns rest cfg3
      else
        let cfg4 := { cfg3 with sparseAsDense := cfg3.sparseAsDense ++ [name] }
        match spec.valueCount with
        | none => .error (InitError.denseMissingValueCount name)
        | some _ => initColumns rest cfg4
    else initColumns rest cfg1

/-- `LoaderBase.__init__` schema processing (lines 91-129): run the
per-column loop from empty attributes, then fail when `dtype_reverse_map`
ended up empty. -/
def loader_init (schema : List (String × ColSpec)) :
    Except InitError LoaderCfg :=
  match initColumns schema ⟨[], [], [], []⟩ with
  | .error e => .error e
  | .ok cfg =>
    if cfg.dtypeReverseMap.length = 0 then .error InitError.noColumns
    else .ok cfg

/-- Whether a column spec has a `value_count` with `min == max`
(line 105). -/
def vcFixed (spec : ColSpec) : Bool :=
  match spec.valueCount with
  | some (mn, mx) => mn = mx
  | none => false

/-- The columns `_handle_tensors` (lines 574-579) sparse-materializes: those
of `sparse_names` that have an entry in `sparse_max`. -/
def handle_tensors_sparse_cols (cfg : LoaderCfg) : List String :=
  cfg.sparseNames.filter (fun n => List.elem n (cfg.sparseMax.map Prod.fst))

/-- Modelled from the spec: the per-row sequence lengths that
`_pull_values_offsets` derives (the framework subclasses implementing it
are not under src/); spec §4.4 computes per-row length from offsets, and
`make_tensors` (line 364) uses the same `offsets[1:] - offsets[:-1]`
difference. -/
def diff_offsets (offsets : List Nat) : List Nat :=
  List.zipWith (fun a b => b - a) offsets offsets.tail

/-- Modelled from the spec: `_get_max_seq_len` (framework subclass, not
under src/); spec §4.4: the observed maximum is the maximum of the per-row
lengths. -/
def get_max_seq_len (diffOffsets : List Nat) : Nat :=
  diffOffsets.foldr max 0

/-- The message of the ValueError raised by `_to_sparse_tensor`
(lines 456-461), with both numbers interpolated as in the source
f-strings. -/
def seq_err_msg (seqLimit maxSeqLen : Nat) : String :=
  "The default sequence length has been configured " ++
    ("to " ++ toString seqLimit ++ " but the ") ++
    ("largest sequence in this batch have " ++ toString maxSeqLen ++ " length")

/-- Modelled from the spec: `_build_sparse_tensor` (framework subclass, not
under src/); spec §4.4 builds a `[num_rows, max_len]` container with each
values of each row placed at its start and the remaining cells zero-filled. -/
def build_sparse_tensor (values offsets : List Nat) (seqLimit : Nat) :
    List (List Nat) :=
  (List.range (offsets.length - 1)).map fun i =>
    let start := offsets.getD i 0
    let stop := offsets.getD (i + 1) 0
    let row := (values.drop start).take (stop - start)
    row ++ List.replicate (seqLimit - row.length) 0

/-- `LoaderBase._to_sparse_tensor` (lines 448-465) for a column with
configured limit `seqLimit`: compute the per-row lengths from the offsets
differences and their maximum; if the maximum exceeds the limit, raise the
ValueError naming both numbers; otherwise build the sparse (padded)
representation. -/
def to_sparse_tensor (seqLimit : Nat) (values offsets : List Nat) :
    Except String (List (List Nat)) :=
  let diffs := diff_offsets offsets
  let maxSeqLen := get_max_seq_len diffs
  if maxSeqLen > seqLimit then .error (seq_err_msg seqLimit maxSeqLen)
  else .ok (build_sparse_tensor values offsets seqLimit)

/-- Helper: `numSteps n b` is the exact ceiling `⌈n / b⌉` of the rational
division, for positive `b`. -/
lemma numSteps_eq_ceil (n b : Nat) (hb : 1 ≤ b) :
    (numSteps n b : ℤ) = ⌈(n : ℚ) / (b : ℚ)⌉ := by
  have hb0 : (0 : ℚ) < (b : ℚ) := by exact_mod_cast hb
  have hdm := Nat.div_add_mod (n + b - 1) b
  have hmlt : (n + b - 1) % b < b := Nat.mod_lt _ (by omega)
  unfold numSteps
  set q := (n + b - 1) / b with hq
  have h1 : n ≤ b * q := by omega
  have h2 : b * q + 1 ≤ n + b := by omega
  symm
  rw [Int.ceil_eq_iff]
  constructor
  · rw [lt_div_iff₀ hb0]
    have h3 : (b : ℚ) * q + 1 ≤ (n : ℚ) + b := by exact_mod_cast h2
    push_cast
    linarith
  · rw [div_le_iff₀ hb0]
    have h3 : (n : ℚ) ≤ (b : ℚ) * q := by exact_mod_cast h1
    push_cast
    linarith

/-- Helper: the segment lengths of a non-empty chunk sum to the row count of the chunk. -/
lemma get_segment_lengths_sum (b n : Nat) (hb : 1 ≤ b) (hn : 1 ≤ n) :
    (get_segment_lengths b n).sum = n := by
  unfold get_segment_lengths numSteps
  have hdm := Nat.div_add_mod (n + b - 1) b
  have hmlt : (n + b - 1) % b < b := Nat.mod_lt _ (by omega)
  set q := (n + b - 1) / b with hq
  have hq1 : 1 ≤ q := by
    rw [hq]
    rw [Nat.le_div_iff_mul_le (by omega)]
    omega
  simp only [List.sum_append, List.sum_replicate, List.sum_cons, List.sum_nil,
    smul_eq_mul]
  have hsub : (q - 1) * b = b * q - b := by
    rw [Nat.sub_mul, one_mul, Nat.mul_comm]
  rw [hsub]
  omega

/-- C4: for every `num_samples n ≥ 1` and `batch_size b ≥ 1`,
`_get_segment_lengths(n)` returns a list of length `ceil(n / b)` whose
entries are all `b` except the last, which equals
`n - (ceil(n/b) - 1) * b`, so the entries sum to `n`. -/
theorem get_segment_lengths_spec (b n : Nat) (hb : 1 ≤ b) (hn : 1 ≤ n) :
    ((get_segment_lengths b n).length : ℤ) = ⌈(n : ℚ) / (b : ℚ)⌉ ∧
    (∀ i, i < numSteps n b - 1 → (get_segment_lengths b n).getD i 0 = b) ∧
    (get_segment_lengths b n).getLast? =
      some (n - (numSteps n b - 1) * b) ∧
    (get_segment_lengths b n).sum = n := by
  refine ⟨?_, ?_, ?_, get_segment_lengths_sum b n hb hn⟩
  · rw [← numSteps_eq_ceil n b hb]
    unfold get_segment_lengths
    simp only [List.length_append, List.length_replicate, List.length_cons,
      List.length_nil]
    have hq1 : 1 ≤ numSteps n b := by
      unfold numSteps
      rw [Nat.le_div_iff_mul_le (by omega)]
      omega
    omega
  · intro i hi
    unfold get_segment_lengths
    rw [List.getD_eq_getElem?_getD, List.getElem?_append_left (by simpa using hi)]
    simp [List.getElem?_replicate, hi]
  · show (List.replicate (numSteps n b - 1) b ++
        [n - (numSteps n b - 1) * b]).getLast? = _
    rw [List.getLast?_concat]

/-- C4 witness: the theorem applied at `b = 4`, `n = 10`. -/
theorem get_segment_lengths_spec_witness :
    ((get_segment_lengths 4 10).length : ℤ) = ⌈(10 : ℚ) / (4 : ℚ)⌉ ∧
    (∀ i, i < numSteps 10 4 - 1 → (get_segment_lengths 4 10).getD i 0 = 4) ∧
    (get_segment_lengths 4 10).getLast? =
      some (10 - (numSteps 10 4 - 1) * 4) ∧
    (get_segment_lengths 4 10).sum = 10 :=
  get_segment_lengths_spec 4 10 (by decide) (by decide)

/-- C3: for a table of `n` rows and `batch_size b ≥ 1`,
`get_batch_div_chunk` returns the first `floor(n/b)*b` rows in order as the
head, the remaining `n % b` rows in order as the tail, and head ++ tail is
the input table. -/
theorem get_batch_div_chunk_spec {α : Type} (chunks : List α) (b : Nat)
    (hb : 1 ≤ b) :
    (get_batch_div_chunk chunks b).1 =
      chunks.take (chunks.length / b * b) ∧
    (get_batch_div_chunk chunks b).2 =
      chunks.drop (chunks.length / b * b) ∧
    (get_batch_div_chunk chunks b).1.length = chunks.length / b * b ∧
    (get_batch_div_chunk chunks b).2.length = chunks.length % b ∧
    (get_batch_div_chunk chunks b).1 ++ (get_batch_div_chunk chunks b).2 =
      chunks := by
  have hle : chunks.length / b * b ≤ chunks.length := Nat.div_mul_le_self _ _
  have hdm := Nat.div_add_mod chunks.length b
  refine ⟨rfl, rfl, ?_, ?_, List.take_append_drop _ _⟩
  · simpa [get_batch_div_chunk] using Nat.min_eq_left hle
  · have hcomm : chunks.length / b * b = b * (chunks.length / b) :=
      Nat.mul_comm _ _
    simp only [get_batch_div_chunk, List.length_drop]
    omega

/-- C3 witness: the theorem applied to a concrete 5-row table with
`batch_size = 2`. -/
theorem get_batch_div_chunk_spec_witness :
    (get_batch_div_chunk [10, 20, 30, 40, 50] 2).1 =
      [10, 20, 30, 40, 50].take (([10, 20, 30, 40, 50] : List Nat).length / 2 * 2) ∧
    (get_batch_div_chunk [10, 20, 30, 40, 50] 2).2 =
      [10, 20, 30, 40, 50].drop (([10, 20, 30, 40, 50] : List Nat).length / 2 * 2) ∧
    (get_batch_div_chunk [10, 20, 30, 40, 50] 2).1.length =
      ([10, 20, 30, 40, 50] : List Nat).length / 2 * 2 ∧
    (get_batch_div_chunk [10, 20, 30, 40, 50] 2).2.length =
      ([10, 20, 30, 40, 50] : List Nat).length % 2 ∧
    (get_batch_div_chunk [10, 20, 30, 40, 50] 2).1 ++
      (get_batch_div_chunk [10, 20, 30, 40, 50] 2).2 = [10, 20, 30, 40, 50] :=
  get_batch_div_chunk_spec [10, 20, 30, 40, 50] 2 (by decide)

/-- C8: `len()` returns `ceil(N / batch_size)`, minus one exactly when
`drop_last` is configured and `N mod batch_size` is non-zero. -/
theorem loaderLen_spec (N b : Nat) (d : Bool) (hb : 1 ≤ b) :
    (loaderLen N b d : ℤ) =
      ⌈(N : ℚ) / (b : ℚ)⌉ - (if d = true ∧ N % b ≠ 0 then 1 else 0) := by
  rw [← numSteps_eq_ceil N b hb]
  show ((if d = true ∧ N % b > 0 then numSteps N b - 1 else numSteps N b : Nat) : ℤ) = _
  by_cases hd : d = true ∧ N % b > 0
  · obtain ⟨hd1, hd2⟩ := hd
    have hmle : N % b ≤ N := Nat.mod_le N b
    have hq1 : 1 ≤ numSteps N b := by
      unfold numSteps
      rw [Nat.le_div_iff_mul_le (by omega)]
      omega
    rw [if_pos ⟨hd1, hd2⟩,
      if_pos (show d = true ∧ N % b ≠ 0 from ⟨hd1, by omega⟩)]
    omega
  · rw [if_neg hd,
      if_neg (show ¬(d = true ∧ N % b ≠ 0) from fun hc => hd ⟨hc.1, by omega⟩)]
    omega

/-- C8 witness: the theorem applied at `N = 10`, `b = 4`, `drop_last = true`. -/
theorem loaderLen_spec_witness :
    (loaderLen 10 4 true : ℤ) =
      ⌈(10 : ℚ) / (4 : ℚ)⌉ - (if true = true ∧ 10 % 4 ≠ 0 then 1 else 0) :=
  loaderLen_spec 10 4 true (by decide)

/-- Helper: the per-shard slice is the contiguous block
`[r*per, r*per + per)` clipped to `[0, P)`. -/
lemma indices_block_eq_range' (P S r : Nat) :
    indices_block P S r =
      List.range' (r * numSteps P S)
        (min (numSteps P S) (P - r * numSteps P S)) := by
  apply List.ext_getElem
  · simp [indices_block]
  · intro i h1 h2
    simp only [indices_block, List.getElem_take, List.getElem_drop,
      List.getElem_range, List.getElem_range']
    omega

/-- Helper: membership in the block of a shard. -/
lemma mem_indices_block (P S r x : Nat) :
    x ∈ indices_block P S r ↔
      r * numSteps P S ≤ x ∧ x < r * numSteps P S + numSteps P S ∧ x < P := by
  rw [indices_block_eq_range', List.mem_range']
  constructor
  · rintro ⟨i, hi, rfl⟩
    omega
  · rintro ⟨h1, h2, h3⟩
    exact ⟨x - r * numSteps P S, by omega, by omega⟩

/-- Helper: `S * ceil(P / S) ≥ P` and `ceil(P / S) ≥ 1` for `1 ≤ S ≤ P`. -/
lemma numSteps_mul_bounds (P S : Nat) (hS : 1 ≤ S) (hP : 1 ≤ P) :
    P ≤ S * numSteps P S ∧ 1 ≤ numSteps P S := by
  unfold numSteps
  have hdm := Nat.div_add_mod (P + S - 1) S
  have hmlt : (P + S - 1) % S < S := Nat.mod_lt _ (by omega)
  constructor
  · omega
  · rw [Nat.le_div_iff_mul_le (by omega)]
    omega

/-- C5: for `P ≥ 1` partitions, `1 ≤ S ≤ P` shards and rank `r < S`,
`_indices_for_process` returns the contiguous block
`[r*ceil(P/S), r*ceil(P/S) + ceil(P/S))` clipped to `[0, P)`; across ranks
the blocks are pairwise disjoint and their union is `[0, P)`; and when
`S > P` it raises (`none`) instead of returning indices. -/
theorem indices_for_process_spec (P S : Nat) (hS : 1 ≤ S) (hP : 1 ≤ P) :
    (∀ r, indices_for_process P S r = none ↔ P < S) ∧
    (S ≤ P → ∀ r, r < S → indices_for_process P S r =
      some (List.range' (r * numSteps P S)
        (min (numSteps P S) (P - r * numSteps P S)))) ∧
    (∀ r₁ r₂, r₁ < S → r₂ < S → r₁ ≠ r₂ →
      ∀ x, x ∈ indices_block P S r₁ → x ∉ indices_block P S r₂) ∧
    (S ≤ P → ∀ x, (∃ r, r < S ∧ x ∈ indices_block P S r) ↔ x < P) := by
  obtain ⟨hcov, hper⟩ := numSteps_mul_bounds P S hS hP
  refine ⟨?_, ?_, ?_, ?_⟩
  · intro r
    unfold indices_for_process
    split <;> simp_all
  · intro hSP r _
    unfold indices_for_process
    rw [if_neg (by omega), indices_block_eq_range']
  · intro r₁ r₂ h1 h2 hne x hx1 hx2
    rw [mem_indices_block] at hx1 hx2
    rcases Nat.lt_or_ge r₁ r₂ with hlt | hge
    · have := Nat.mul_le_mul_right (numSteps P S) (show r₁ + 1 ≤ r₂ by omega)
      have hd : (r₁ + 1) * numSteps P S = r₁ * numSteps P S + numSteps P S :=
        Nat.succ_mul _ _
      omega
    · have hlt2 : r₂ < r₁ := by omega
      have := Nat.mul_le_mul_right (numSteps P S) (show r₂ + 1 ≤ r₁ by omega)
      have hd : (r₂ + 1) * numSteps P S = r₂ * numSteps P S + numSteps P S :=
        Nat.succ_mul _ _
      omega
  · intro hSP x
    constructor
    · rintro ⟨r, _, hx⟩
      exact ((mem_indices_block P S r x).mp hx).2.2
    · intro hxP
      refine ⟨x / numSteps P S, ?_, ?_⟩
      · rw [Nat.div_lt_iff_lt_mul (by omega)]
        have : S * numSteps P S = numSteps P S * S := Nat.mul_comm _ _
        omega
      · rw [mem_indices_block]
        have h1 : x / numSteps P S * numSteps P S ≤ x := Nat.div_mul_le_self _ _
        have h2 := Nat.div_add_mod x (numSteps P S)
        have h3 : x % numSteps P S < numSteps P S := Nat.mod_lt _ (by omega)
        have h4 : x / numSteps P S * numSteps P S =
            numSteps P S * (x / numSteps P S) := Nat.mul_comm _ _
        omega

/-- C5 witness: the theorem applied at `P = 5`, `S = 2`. -/
theorem indices_for_process_spec_witness :
    (∀ r, indices_for_process 5 2 r = none ↔ 5 < 2) ∧
    (2 ≤ 5 → ∀ r, r < 2 → indices_for_process 5 2 r =
      some (List.range' (r * numSteps 5 2)
        (min (numSteps 5 2) (5 - r * numSteps 5 2)))) ∧
    (∀ r₁ r₂, r₁ < 2 → r₂ < 2 → r₁ ≠ r₂ →
      ∀ x, x ∈ indices_block 5 2 r₁ → x ∉ indices_block 5 2 r₂) ∧
    (2 ≤ 5 → ∀ x, (∃ r, r < 2 ∧ x ∈ indices_block 5 2 r) ↔ x < 5) :=
  indices_for_process_spec 5 2 (by decide) (by decide)

/-- Helper: regrouping partitions into chunks loses no partition. -/
lemma batchGen_flatten (numParts : Nat) (l : List α) :
    (batchGen numParts l).flatten = l := by
  induction l using batchGen.induct numParts with
  | case1 l h => simp [batchGen, h, List.isEmpty_iff.mp h]
  | case2 l h hn => simp [batchGen, h, hn]
  | case3 l h hn ih =>
    rw [batchGen, if_neg h, if_neg hn]
    simp only [List.flatten_cons, ih]
    exact List.take_append_drop _ _

/-- Helper: `splitSegments` reassembles to a prefix of the input of length
the sum of the segment lengths. -/
lemma splitSegments_flatten (ss : List Nat) :
    ∀ l : List α, (splitSegments ss l).flatten = l.take ss.sum := by
  induction ss with
  | nil => intro l; simp [splitSegments]
  | cons s ss ih =>
    intro l
    simp only [splitSegments, List.flatten_cons, ih, List.sum_cons]
    exact (List.take_add l s ss.sum).symm

/-- Helper: `make_tensors` reassembles each non-empty chunk exactly. -/
lemma make_tensors_rows_flatten (b : Nat) (chunk : List α) (hb : 1 ≤ b)
    (hne : chunk ≠ []) : (make_tensors_rows b chunk).flatten = chunk := by
  have hlen : 1 ≤ chunk.length := List.length_pos.mpr hne
  rw [make_tensors_rows, splitSegments_flatten,
    get_segment_lengths_sum b chunk.length hb hlen, List.take_length]

/-- Helper: every chunk emitted by `chunk_logic` is non-empty. -/
lemma chunkLogicAux_ne_nil (b : Nat) (dropLast : Bool) :
    ∀ (gs : List (List (List α))) (spill : Option (List α)),
      ∀ c ∈ chunkLogicAux b dropLast spill gs, c ≠ [] := by
  intro gs
  induction gs with
  | nil =>
    intro spill c hc
    cases spill with
    | none => simp [chunkLogicAux] at hc
    | some s =>
      simp only [chunkLogicAux] at hc
      split at hc
      · rename_i hcond
        simp only [List.mem_singleton] at hc
        subst hc
        intro hnil
        subst hnil
        simp at hcond
      · simp at hc
  | cons g gs ih =>
    intro spill c hc
    simp only [chunkLogicAux, List.mem_append] at hc
    rcases hc with hc | hc
    · split at hc
      · rename_i hpos
        simp only [List.mem_singleton] at hc
        subst hc
        exact List.ne_nil_of_length_pos hpos
      · simp at hc
    · exact ih _ c hc

/-- Helper: concatenating the spill in front of a group and flattening. -/
lemma withSpill_flatten (spill : Option (List α)) (g : List (List α)) :
    (match spill with
      | some s => if s.isEmpty then g else s :: g
      | none => g).flatten = spill.getD [] ++ g.flatten := by
  cases spill with
  | none => simp
  | some s =>
    by_cases hs : s.isEmpty
    · simp [hs, List.isEmpty_iff.mp hs]
    · simp [hs]

/-- Helper: starting `chunk_logic` with no spill is the same as starting it
with an empty spill. -/
lemma chunkLogicAux_none_eq_some_nil (b : Nat) (dropLast : Bool)
    (gs : List (List (List α))) :
    chunkLogicAux b dropLast none gs =
      chunkLogicAux b dropLast (some []) gs := by
  cases gs with
  | nil => simp [chunkLogicAux]
  | cons g gs => simp [chunkLogicAux]

/-- Helper: with `drop_last` off, the rows of the emitted chunks are exactly
the carried spill followed by all rows of the remaining groups, in order. -/
lemma chunkLogicAux_flatten_false (b : Nat) :
    ∀ (gs : List (List (List α))) (spill : Option (List α)),
      (chunkLogicAux b false spill gs).flatten =
        spill.getD [] ++ gs.flatten.flatten := by
  intro gs
  induction gs with
  | nil =>
    intro spill
    cases spill with
    | none => simp [chunkLogicAux]
    | some s =>
      by_cases hs : s.isEmpty
      · simp [chunkLogicAux, hs, List.isEmpty_iff.mp hs]
      · simp [chunkLogicAux, hs]
  | cons g gs ih =>
    intro spill
    simp only [chunkLogicAux, List.flatten_append, ih, withSpill_flatten,
      Option.getD_some]
    have hsplit : (get_batch_div_chunk (spill.getD [] ++ g.flatten) b).1 ++
        (get_batch_div_chunk (spill.getD [] ++ g.flatten) b).2 =
        spill.getD [] ++ g.flatten := List.take_append_drop _ _
    by_cases hpos :
        0 < (get_batch_div_chunk (spill.getD [] ++ g.flatten) b).1.length
    · rw [if_pos hpos]
      simp only [List.flatten_cons, List.flatten_nil, List.append_nil]
      rw [← List.append_assoc, hsplit, List.append_assoc]
      simp [List.flatten_append]
    · rw [if_neg hpos]
      have h1 : (get_batch_div_chunk (spill.getD [] ++ g.flatten) b).1 = [] :=
        List.eq_nil_of_length_eq_zero (by omega)
      rw [h1, List.nil_append] at hsplit
      simp only [List.flatten_nil, List.nil_append]
      rw [hsplit, List.append_assoc]
      simp [List.flatten_append]

/-- Helper: with `drop_last` on, the rows of the emitted chunks are the
longest batch-aligned prefix of the stream (the final undersized spill is
dropped). -/
lemma chunkLogicAux_flatten_true (b : Nat) (hb : 1 ≤ b) :
    ∀ (gs : List (List (List α))) (spill : List α), spill.length < b →
      (chunkLogicAux b true (some spill) gs).flatten =
        (spill ++ gs.flatten.flatten).take
          ((spill ++ gs.flatten.flatten).length -
            (spill ++ gs.flatten.flatten).length % b) := by
  intro gs
  induction gs with
  | nil =>
    intro spill hsp
    have hmod : spill.length % b = spill.length := Nat.mod_eq_of_lt hsp
    simp [chunkLogicAux, hmod]
  | cons g gs ih =>
    intro spill hsp
    have hifflat : (if spill.isEmpty = true then g else spill :: g).flatten =
        spill ++ g.flatten := by
      by_cases hs : spill.isEmpty
      · simp [hs, List.isEmpty_iff.mp hs]
      · simp [hs]
    simp only [chunkLogicAux, List.flatten_append, hifflat]
    set M := spill ++ g.flatten with hMdef
    set A := M.length with hA
    set k := A / b * b with hk
    have hkA : k ≤ A := Nat.div_mul_le_self _ _
    have hkc : k = b * (A / b) := Nat.mul_comm _ _
    have hdmA := Nat.div_add_mod A b
    have htail2 : (get_batch_div_chunk M b).2 = M.drop k := rfl
    have htail1 : (get_batch_div_chunk M b).1 = M.take k := rfl
    have htlen : (M.drop k).length = A % b := by
      simp only [List.length_drop, ← hA]
      omega
    have htlt : (M.drop k).length < b := by
      rw [htlen]; exact Nat.mod_lt _ (by omega)
    rw [htail1, htail2, ih (M.drop k) htlt]
    set R := gs.flatten.flatten with hR
    have hrows : spill ++ (g.flatten ++ R) = M ++ R := by
      rw [hMdef, List.append_assoc]
    have hgoalrows : spill ++ (g :: gs).flatten.flatten = M ++ R := by
      rw [List.flatten_cons, List.flatten_append]
      exact hrows
    rw [hgoalrows]
    have hdropR : M.drop k ++ R = (M ++ R).drop k :=
      (List.drop_append_of_le_length hkA).symm
    have hmodeq : (M.drop k ++ R).length % b = (M ++ R).length % b := by
      have h1 : (M ++ R).length = (M.drop k ++ R).length + b * (A / b) := by
        simp only [List.length_append, htlen, List.length_drop, ← hA]
        omega
      rw [h1, Nat.add_mul_mod_self_left]
    have harith : (M ++ R).length - (M ++ R).length % b =
        k + ((M.drop k ++ R).length - (M.drop k ++ R).length % b) := by
      have hLlen : (M ++ R).length = A + R.length := by
        simp [← hA]
      have hMklen : (M.drop k ++ R).length = A % b + R.length := by
        simp [htlen]
      have hmle : (M.drop k ++ R).length % b ≤ (M.drop k ++ R).length :=
        Nat.mod_le _ _
      omega
    rw [harith, List.take_add, List.take_append_of_le_length hkA, ← hdropR]
    by_cases hpos : 0 < (M.take k).length
    · rw [if_pos hpos]
      simp
    · rw [if_neg hpos]
      have h1 : M.take k = [] := List.eq_nil_of_length_eq_zero (by omega)
      simp [h1]

/-- Helper: flattening the per-chunk batches of non-empty chunks recovers
the rows of the chunks. -/
lemma flatMap_make_tensors_flatten (b : Nat) (hb : 1 ≤ b) :
    ∀ cs : List (List α), (∀ c ∈ cs, c ≠ []) →
      (cs.flatMap (make_tensors_rows b)).flatten = cs.flatten := by
  intro cs
  induction cs with
  | nil => intro _; simp
  | cons c cs ih =>
    intro h
    simp only [List.flatMap_cons, List.flatten_append, List.flatten_cons]
    rw [make_tensors_rows_flatten b c hb (h c (by simp)),
      ih (fun c' hc' => h c' (by simp [hc']))]

/-- C1: for every `batch_size ≥ 1`, `parts_per_chunk`, and partition stream,
the batches yielded in one epoch carry every input row exactly once and in
order, except that with `drop_last` the final undersized spill is dropped:
their row counts sum to `R` rows (`floor(R / batch_size) * batch_size` under
`drop_last`), and their concatenation is the input row stream (its longest
batch-aligned prefix under `drop_last`). -/
theorem chunk_pipeline_row_accounting {α : Type} (b numParts : Nat)
    (dropLast : Bool) (parts : List (List α)) (hb : 1 ≤ b) :
    ((epochBatches b dropLast numParts parts).map List.length).sum =
      (if dropLast then (parts.map List.length).sum / b * b
        else (parts.map List.length).sum) ∧
    (epochBatches b dropLast numParts parts).flatten =
      (if dropLast then
        parts.flatten.take ((parts.map List.length).sum / b * b)
        else parts.flatten) := by
  have hR : (parts.map List.length).sum = parts.flatten.length :=
    (List.length_flatten parts).symm
  have hgs : (batchGen numParts parts).flatten.flatten = parts.flatten := by
    rw [batchGen_flatten]
  have hflat : (epochBatches b dropLast numParts parts).flatten =
      (chunkLogic b dropLast numParts parts).flatten := by
    unfold epochBatches
    exact flatMap_make_tensors_flatten b hb _
      (chunkLogicAux_ne_nil b dropLast _ none)
  have hchunks : (chunkLogic b dropLast numParts parts).flatten =
      (if dropLast then
        parts.flatten.take ((parts.map List.length).sum / b * b)
        else parts.flatten) := by
    unfold chunkLogic
    cases dropLast with
    | false =>
      rw [chunkLogicAux_flatten_false, hgs]
      simp
    | true =>
      rw [chunkLogicAux_none_eq_some_nil,
        chunkLogicAux_flatten_true b hb _ [] (by simpa using hb)]
      simp only [List.nil_append, hgs, hR]
      have hdm := Nat.div_add_mod parts.flatten.length b
      have hcm : parts.flatten.length / b * b = b * (parts.flatten.length / b) :=
        Nat.mul_comm _ _
      have heq : parts.flatten.length - parts.flatten.length % b =
          parts.flatten.length / b * b := by omega
      rw [heq]
      simp
  have hsecond : (epochBatches b dropLast numParts parts).flatten =
      (if dropLast then
        parts.flatten.take ((parts.map List.length).sum / b * b)
        else parts.flatten) := hflat.trans hchunks
  refine ⟨?_, hsecond⟩
  rw [← List.length_flatten, hsecond]
  cases dropLast with
  | false =>
    rw [if_neg (by decide), if_neg (by decide)]
    exact hR.symm
  | true =>
    rw [if_pos (by decide), if_pos (by decide), List.length_take]
    have hle : (parts.map List.length).sum / b * b ≤ parts.flatten.length := by
      rw [hR]
      exact Nat.div_mul_le_self _ _
    omega

/-- C1 witness: the theorem applied to a concrete stream of three partitions
totalling 7 rows, `batch_size = 3`, `parts_per_chunk = 2`,
`drop_last = true`. -/
theorem chunk_pipeline_row_accounting_witness :
    ((epochBatches 3 true 2 [[0, 1, 2], [3], [4, 5, 6]]).map List.length).sum =
      (if true then
        (([[0, 1, 2], [3], [4, 5, 6]] : List (List Nat)).map List.length).sum / 3 * 3
        else (([[0, 1, 2], [3], [4, 5, 6]] : List (List Nat)).map List.length).sum) ∧
    (epochBatches 3 true 2 [[0, 1, 2], [3], [4, 5, 6]]).flatten =
      (if true then
        ([[0, 1, 2], [3], [4, 5, 6]] : List (List Nat)).flatten.take
          ((([[0, 1, 2], [3], [4, 5, 6]] : List (List Nat)).map List.length).sum / 3 * 3)
        else ([[0, 1, 2], [3], [4, 5, 6]] : List (List Nat)).flatten) :=
  chunk_pipeline_row_accounting 3 2 true [[0, 1, 2], [3], [4, 5, 6]] (by decide)

/-- C9: `stop()` is idempotent — a second `stop()` right after one leaves
the whole observable state (workers, queue, cached batch iterator, flags,
row counter) unchanged — and re-invoking iteration after `stop()` resets
the processed-row counter to 0. -/
theorem stop_idempotent_epoch_reset {ε β : Type} (s : LoaderState ε β) :
    stopFn (stopFn s) = stopFn s ∧
    (iterFn (stopFn s)).numRowsProcessed = 0 := by
  constructor
  · cases hw : s.workers with
    | none => simp [stopFn, hw]
    | some k =>
      by_cases hb : s.buffStopped
      · simp [stopFn, hw, hb]
      · simp [stopFn, hw, hb]
  · simp [iterFn, apply_ite]

/-- C6: every exception raised in the assemble-convert-enqueue loop of the worker
is caught and placed on the queue, as the exception object itself, after the
successfully enqueued packets and as the final item (the worker exits); and
when the consumer dequeues an exception item it applies `stop()` — tearing
down its workers, queue and cached batch iterator — and re-raises exactly
that exception. -/
theorem exception_propagation_spec {α ε π β : Type}
    (mk : List α → Except ε π) (b numParts : Nat) (dropLast : Bool)
    (parts : List (List α)) (e : ε) (s : LoaderState ε β)
    (rest : List (QItem ε (List β))) :
    ((chunkLogicRun mk b dropLast none (batchGen numParts parts)).2 = some e →
      load_chunks mk b dropLast numParts parts =
        (chunkLogicRun mk b dropLast none (batchGen numParts parts)).1.map
          QItem.pkt ++ [QItem.exn e]) ∧
    (s.queue = QItem.exn e :: rest →
      fetch_chunk s = some (stopFn { s with queue := rest }, some e) ∧
      (stopFn { s with queue := rest }).workers = none ∧
      (stopFn { s with queue := rest }).batchItr = none) := by
  constructor
  · intro herr
    show List.map QItem.pkt
        (chunkLogicRun mk b dropLast none (batchGen numParts parts)).1 ++
        (match (chunkLogicRun mk b dropLast none (batchGen numParts parts)).2 with
          | some e => [QItem.exn e]
          | none => []) = _
    rw [herr]
  · intro hq
    refine ⟨?_, ?_, ?_⟩
    · unfold fetch_chunk
      rw [hq]
    · cases hw : s.workers with
      | none => simp [stopFn, hw]
      | some k => by_cases hb : s.buffStopped <;> simp [stopFn, hw, hb]
    · cases hw : s.workers with
      | none => simp [stopFn, hw]
      | some k => by_cases hb : s.buffStopped <;> simp [stopFn, hw, hb]

/-- C6 witness: the theorem applied to a one-partition stream whose
conversion raises exception `7`, and a consumer state holding that
exception at the head of its queue. -/
theorem exception_propagation_spec_witness :
    (chunkLogicRun (fun _ => (Except.error 7 : Except Nat Nat)) 1 false none
      (batchGen 1 [[(1 : Nat)]])).2 = some 7 ∧
    load_chunks (fun _ => (Except.error 7 : Except Nat Nat)) 1 false 1
        [[(1 : Nat)]] =
      (chunkLogicRun (fun _ => (Except.error 7 : Except Nat Nat)) 1 false none
        (batchGen 1 [[(1 : Nat)]])).1.map QItem.pkt ++ [QItem.exn 7] ∧
    fetch_chunk
        (⟨some 1, false, [QItem.exn 7], none, 5⟩ : LoaderState Nat Nat) =
      some (stopFn (⟨some 1, false, [], none, 5⟩ : LoaderState Nat Nat),
        some 7) ∧
    (stopFn (⟨some 1, false, [], none, 5⟩ : LoaderState Nat Nat)).workers =
      none ∧
    (stopFn (⟨some 1, false, [], none, 5⟩ : LoaderState Nat Nat)).batchItr =
      none := by
  have h1 : (chunkLogicRun (fun _ => (Except.error 7 : Except Nat Nat)) 1
      false none (batchGen 1 [[(1 : Nat)]])).2 = some 7 := by
    simp [chunkLogicRun, batchGen, get_batch_div_chunk]
  have hq : (⟨some 1, false, [QItem.exn 7], none, 5⟩ :
      LoaderState Nat Nat).queue = QItem.exn 7 :: [] := rfl
  obtain ⟨w1, w2⟩ := exception_propagation_spec
    (fun _ => (Except.error 7 : Except Nat Nat)) 1 1 false [[(1 : Nat)]] 7
    (⟨some 1, false, [QItem.exn 7], none, 5⟩ : LoaderState Nat Nat) []
  exact ⟨h1, w1 h1, (w2 hq).1, (w2 hq).2.1, (w2 hq).2.2⟩

/-- Helper: with distinct column names, a name determines its spec. -/
lemma keys_nodup_unique :
    ∀ (schema : List (String × ColSpec)) (a : String) (x y : ColSpec),
      (schema.map Prod.fst).Nodup → (a, x) ∈ schema → (a, y) ∈ schema →
        x = y := by
  intro schema
  induction schema with
  | nil => intro a x y _ hx; simp at hx
  | cons p rest ih =>
    intro a x y hnd hx hy
    simp only [List.map_cons, List.nodup_cons] at hnd
    rcases List.mem_cons.mp hx with hx1 | hx1 <;>
      rcases List.mem_cons.mp hy with hy1 | hy1
    · have h := hx1.trans hy1.symm
      injection h with h1 h2
    · exfalso
      apply hnd.1
      rw [← hx1]
      exact List.mem_map.mpr ⟨(a, y), hy1, rfl⟩
    · exfalso
      apply hnd.1
      rw [← hy1]
      exact List.mem_map.mpr ⟨(a, x), hx1, rfl⟩
    · exact ih a x y hnd.2 hx1 hy1

/-- Helper: the per-column loop fails exactly when some column is a
declared-dense (non-ragged) list column with no `value_count`. -/
lemma initColumns_error_iff :
    ∀ (schema : List (String × ColSpec)) (cfg : LoaderCfg),
      (∃ e, initColumns schema cfg = .error e) ↔
        ∃ p ∈ schema, p.2.isList = true ∧ p.2.isRagged = false ∧
          p.2.valueCount = none := by
  intro schema
  induction schema with
  | nil => intro cfg; simp [initColumns]
  | cons p rest ih =>
    obtain ⟨name, spec⟩ := p
    intro cfg
    by_cases hl : spec.isList
    · cases hvc : spec.valueCount with
      | none =>
        by_cases hr : spec.isRagged
        · simp [initColumns, hl, hvc, hr, ih]
        · simp [initColumns, hl, hvc, hr, ih]
      | some v =>
        obtain ⟨mn, mx⟩ := v
        by_cases hr : spec.isRagged
        · simp [initColumns, hl, hvc, hr, ih]
        · simp [initColumns, hl, hvc, hr, ih]
    · have hl' : spec.isList = false := by simpa using hl
      simp [initColumns, hl', ih]

/-- Helper: `addDtype` never shrinks the map and never returns it empty. -/
lemma addDtype_length (m : List (Nat × List String)) (d : Nat) (n : String) :
    m.length ≤ (addDtype m d n).length ∧ 1 ≤ (addDtype m d n).length := by
  induction m with
  | nil => simp [addDtype]
  | cons kv rest ih =>
    obtain ⟨d', ns⟩ := kv
    by_cases hd : d' = d
    · simp [addDtype, hd]
    · simp only [addDtype, if_neg hd, List.length_cons]
      omega

/-- Helper: on success the loop never shrinks `dtype_reverse_map`, and
leaves it non-empty whenever at least one column was processed. -/
lemma initColumns_ok_length :
    ∀ (schema : List (String × ColSpec)) (cfg cfg' : LoaderCfg),
      initColumns schema cfg = .ok cfg' →
        cfg.dtypeReverseMap.length ≤ cfg'.dtypeReverseMap.length ∧
        (schema ≠ [] → 1 ≤ cfg'.dtypeReverseMap.length) := by
  intro schema
  induction schema with
  | nil =>
    intro cfg cfg' h
    simp only [initColumns, Except.ok.injEq] at h
    subst h
    exact ⟨Nat.le_refl _, fun hne => absurd rfl hne⟩
  | cons p rest ih =>
    obtain ⟨name, spec⟩ := p
    intro cfg cfg' h
    have hadd := addDtype_length cfg.dtypeReverseMap spec.dtype name
    have hfin : (addDtype cfg.dtypeReverseMap spec.dtype name).length ≤
        cfg'.dtypeReverseMap.length →
        cfg.dtypeReverseMap.length ≤ cfg'.dtypeReverseMap.length ∧
        ((name, spec) :: rest ≠ [] → 1 ≤ cfg'.dtypeReverseMap.length) := by
      intro hle
      exact ⟨by omega, fun _ => by omega⟩
    by_cases hl : spec.isList
    · cases hvc : spec.valueCount with
      | none =>
        by_cases hr : spec.isRagged
        · simp only [initColumns, hl, if_true, hvc, hr] at h
          have h2 : (addDtype cfg.dtypeReverseMap spec.dtype name).length ≤
              cfg'.dtypeReverseMap.length := (ih _ _ h).1
          exact hfin h2
        · simp [initColumns, hl, hvc, hr] at h
      | some v =>
        obtain ⟨mn, mx⟩ := v
        by_cases hr : spec.isRagged <;> by_cases hmn : mn = mx <;>
          · simp only [initColumns, hl, if_true, hvc, hr, hmn, if_true,
              if_false] at h
            have h2 : (addDtype cfg.dtypeReverseMap spec.dtype name).length ≤
              cfg'.dtypeReverseMap.length := (ih _ _ h).1
            exact hfin h2
    · have hl' : spec.isList = false := by simpa using hl
      simp only [initColumns, hl', Bool.false_eq_true, if_false] at h
      have h2 : (addDtype cfg.dtypeReverseMap spec.dtype name).length ≤
          cfg'.dtypeReverseMap.length := (ih _ _ h).1
      exact hfin h2

/-- C7 counterexample: a schema with one column carrying no categorical,
continuous or target tag still constructs a loader (the code only rejects a
schema with no columns at all, since `dtype_reverse_map` records every
column regardless of its tags). -/
theorem loader_init_untagged_column_ok :
    loader_init [("a", ⟨0, false, false, none, [ColTag.other]⟩)] =
      .ok ⟨[(0, ["a"])], [], [], []⟩ ∧
    ∀ p ∈ ([("a", (⟨0, false, false, none, [ColTag.other]⟩ : ColSpec))] :
        List (String × ColSpec)),
      ColTag.categorical ∉ p.2.tags ∧ ColTag.continuous ∉ p.2.tags ∧
        ColTag.target ∉ p.2.tags := by
  constructor
  · rfl
  · decide

/-- C7 (amended): loader construction fails exactly when some declared-dense
(non-ragged) list column has no `value_count` bound, or the schema has no
columns at all; every schema with at least one column and no such dense-list
violation produces a loader, even when no categorical, continuous or label
columns are present. -/
theorem loader_init_validation (schema : List (String × ColSpec)) :
    (∃ e, loader_init schema = .error e) ↔
      schema = [] ∨
        ∃ p ∈ schema, p.2.isList = true ∧ p.2.isRagged = false ∧
          p.2.valueCount = none := by
  constructor
  · rintro ⟨e, he⟩
    cases hinit : initColumns schema ⟨[], [], [], []⟩ with
    | error e' =>
      right
      exact (initColumns_error_iff schema _).mp ⟨e', hinit⟩
    | ok cfg =>
      have hli : loader_init schema =
          if cfg.dtypeReverseMap.length = 0 then .error InitError.noColumns
          else .ok cfg := by
        unfold loader_init
        rw [hinit]
      rw [hli] at he
      by_cases hlen : cfg.dtypeReverseMap.length = 0
      · left
        by_contra hne
        have := (initColumns_ok_length schema _ _ hinit).2 hne
        omega
      · rw [if_neg hlen] at he
        exact absurd he (by simp)
  · rintro (rfl | hbad)
    · exact ⟨InitError.noColumns, by simp [loader_init, initColumns]⟩
    · obtain ⟨e, he⟩ := (initColumns_error_iff schema ⟨[], [], [], []⟩).mpr hbad
      refine ⟨e, ?_⟩
      unfold loader_init
      rw [he]

/-- Helper: on success the loop appends to `sparse_names` the list columns
in order, and to `sparse_max` exactly the list columns whose `value_count`
exists with `min == max`. -/
lemma initColumns_sparse :
    ∀ (schema : List (String × ColSpec)) (cfg cfg' : LoaderCfg),
      initColumns schema cfg = .ok cfg' →
        cfg'.sparseNames = cfg.sparseNames ++
          ((schema.filter fun p => p.2.isList).map Prod.fst) ∧
        cfg'.sparseMax.map Prod.fst = cfg.sparseMax.map Prod.fst ++
          ((schema.filter fun p => p.2.isList && vcFixed p.2).map Prod.fst) := by
  intro schema
  induction schema with
  | nil =>
    intro cfg cfg' h
    simp only [initColumns, Except.ok.injEq] at h
    subst h
    simp
  | cons p rest ih =>
    obtain ⟨name, spec⟩ := p
    intro cfg cfg' h
    by_cases hl : spec.isList
    · cases hvc : spec.valueCount with
      | none =>
        by_cases hr : spec.isRagged
        · simp only [initColumns, hl, if_true, hvc, hr] at h
          have hih : cfg'.sparseNames = (cfg.sparseNames ++ [name]) ++
              ((rest.filter fun p => p.2.isList).map Prod.fst) ∧
              cfg'.sparseMax.map Prod.fst = cfg.sparseMax.map Prod.fst ++
              ((rest.filter fun p => p.2.isList && vcFixed p.2).map
                Prod.fst) := ih _ _ h
          constructor
          · rw [hih.1]
            simp [List.filter_cons, hl]
          · rw [hih.2]
            simp [List.filter_cons, hl, vcFixed, hvc]
        · simp [initColumns, hl, hvc, hr] at h
      | some v =>
        obtain ⟨mn, mx⟩ := v
        by_cases hmn : mn = mx
        · have hleaf : initColumns rest
              ⟨addDtype cfg.dtypeReverseMap spec.dtype name,
                cfg.sparseNames ++ [name], cfg.sparseMax ++ [(name, mx)],
                if spec.isRagged then cfg.sparseAsDense
                  else cfg.sparseAsDense ++ [name]⟩ = .ok cfg' := by
            by_cases hr : spec.isRagged <;>
              simp only [initColumns, hl, if_true, hvc, hmn, if_true,
                hr, if_false] at h <;>
              simpa [hr] using h
          have hih : cfg'.sparseNames = (cfg.sparseNames ++ [name]) ++
              ((rest.filter fun p => p.2.isList).map Prod.fst) ∧
              cfg'.sparseMax.map Prod.fst =
              (cfg.sparseMax ++ [(name, mx)]).map Prod.fst ++
              ((rest.filter fun p => p.2.isList && vcFixed p.2).map
                Prod.fst) := ih _ _ hleaf
          constructor
          · rw [hih.1]
            simp [List.filter_cons, hl]
          · rw [hih.2]
            simp [List.filter_cons, hl, vcFixed, hvc, hmn]
        · have hleaf : initColumns rest
              ⟨addDtype cfg.dtypeReverseMap spec.dtype name,
                cfg.sparseNames ++ [name], cfg.sparseMax,
                if spec.isRagged then cfg.sparseAsDense
                  else cfg.sparseAsDense ++ [name]⟩ = .ok cfg' := by
            by_cases hr : spec.isRagged <;>
              simp only [initColumns, hl, if_true, hvc, hmn, if_false,
                hr, if_true] at h <;>
              simpa [hr] using h
          have hih : cfg'.sparseNames = (cfg.sparseNames ++ [name]) ++
              ((rest.filter fun p => p.2.isList).map Prod.fst) ∧
              cfg'.sparseMax.map Prod.fst = cfg.sparseMax.map Prod.fst ++
              ((rest.filter fun p => p.2.isList && vcFixed p.2).map
                Prod.fst) := ih _ _ hleaf
          constructor
          · rw [hih.1]
            simp [List.filter_cons, hl]
          · rw [hih.2]
            simp [List.filter_cons, hl, vcFixed, hvc, hmn]
    · have hl' : spec.isList = false := by simpa using hl
      simp only [initColumns, hl', Bool.false_eq_true, if_false] at h
      have hih : cfg'.sparseNames = cfg.sparseNames ++
          ((rest.filter fun p => p.2.isList).map Prod.fst) ∧
          cfg'.sparseMax.map Prod.fst = cfg.sparseMax.map Prod.fst ++
          ((rest.filter fun p => p.2.isList && vcFixed p.2).map
            Prod.fst) :=
        ih ⟨addDtype cfg.dtypeReverseMap spec.dtype name, cfg.sparseNames,
          cfg.sparseMax, cfg.sparseAsDense⟩ cfg' h
      constructor
      · rw [hih.1]
        simp [List.filter_cons, hl']
      · rw [hih.2]
        simp [List.filter_cons, hl']

/-- Helper: membership of the name of a schema column in the names of a filtered
sub-schema, under distinct column names. -/
lemma mem_filter_keys_iff (schema : List (String × ColSpec))
    (q : String × ColSpec → Bool) (name : String) (spec : ColSpec)
    (hnodup : (schema.map Prod.fst).Nodup) (hmem : (name, spec) ∈ schema) :
    (name ∈ (schema.filter q).map Prod.fst) ↔ q (name, spec) = true := by
  constructor
  · intro hin
    obtain ⟨p, hp, hfst⟩ := List.mem_map.mp hin
    obtain ⟨hps, hpq⟩ := List.mem_filter.mp hp
    obtain ⟨pn, psp⟩ := p
    simp only at hfst
    rw [hfst] at hps hpq
    have heq := keys_nodup_unique schema name psp spec hnodup hps hmem
    rw [heq] at hpq
    exact hpq
  · intro hq
    exact List.mem_map.mpr ⟨(name, spec), List.mem_filter.mpr ⟨hmem, hq⟩, rfl⟩

/-- C10: assuming distinct column names, a schema column is
sparse-materialized by `_handle_tensors` (appears in the constructor-built
`sparse_max`, hence is routed through `_to_sparse_tensor` and its
maximum-length check) iff it is a list column whose `value_count` exists
with `min` equal to `max`; in particular a ragged list column without such
a fixed `value_count` is not sparse-materialized and gets no length check. -/
theorem sparse_materialization_iff (schema : List (String × ColSpec))
    (cfg : LoaderCfg) (name : String) (spec : ColSpec)
    (hnodup : (schema.map Prod.fst).Nodup)
    (hok : loader_init schema = .ok cfg) (hmem : (name, spec) ∈ schema) :
    name ∈ handle_tensors_sparse_cols cfg ↔
      spec.isList = true ∧ ∃ k, spec.valueCount = some (k, k) := by
  have hinit : initColumns schema ⟨[], [], [], []⟩ = .ok cfg := by
    cases hinit2 : initColumns schema ⟨[], [], [], []⟩ with
    | error e =>
      have hli : loader_init schema = .error e := by
        unfold loader_init
        rw [hinit2]
      rw [hli] at hok
      exact absurd hok (by simp)
    | ok cfg2 =>
      have hli : loader_init schema =
          if cfg2.dtypeReverseMap.length = 0 then .error InitError.noColumns
          else .ok cfg2 := by
        unfold loader_init
        rw [hinit2]
      rw [hli] at hok
      by_cases hlen : cfg2.dtypeReverseMap.length = 0
      · rw [if_pos hlen] at hok
        exact absurd hok (by simp)
      · rw [if_neg hlen] at hok
        simp only [Except.ok.injEq] at hok
        rw [hok]
  obtain ⟨hnames, hmax⟩ := initColumns_sparse schema _ _ hinit
  simp only [List.nil_append] at hnames hmax
  constructor
  · intro hin
    obtain ⟨hsn, helem⟩ := List.mem_filter.mp hin
    rw [hmax] at helem
    have hkey : name ∈ (schema.filter
        fun p => p.2.isList && vcFixed p.2).map Prod.fst :=
      List.elem_iff.mp helem
    have hq := (mem_filter_keys_iff schema _ name spec hnodup hmem).mp hkey
    simp only [Bool.and_eq_true] at hq
    refine ⟨hq.1, ?_⟩
    have hvf := hq.2
    unfold vcFixed at hvf
    cases hvc : spec.valueCount with
    | none => rw [hvc] at hvf; exact absurd hvf (by simp)
    | some v =>
      obtain ⟨mn, mx⟩ := v
      rw [hvc] at hvf
      simp only [decide_eq_true_eq] at hvf
      exact ⟨mn, by rw [hvf]⟩
  · rintro ⟨hlist, k, hvc⟩
    unfold handle_tensors_sparse_cols
    apply List.mem_filter.mpr
    constructor
    · rw [hnames]
      exact (mem_filter_keys_iff schema _ name spec hnodup hmem).mpr hlist
    · rw [hmax]
      apply List.elem_iff.mpr
      apply (mem_filter_keys_iff schema _ name spec hnodup hmem).mpr
      simp [hlist, vcFixed, hvc]

/-- C10 witness: the theorem applied to a one-column schema whose list
column has a fixed `value_count` of 3. -/
theorem sparse_materialization_iff_witness :
    "a" ∈ handle_tensors_sparse_cols ⟨[(0, ["a"])], ["a"], [("a", 3)], ["a"]⟩ ↔
      (⟨0, true, false, some (3, 3), [ColTag.categorical]⟩ :
        ColSpec).isList = true ∧
      ∃ k, (⟨0, true, false, some (3, 3), [ColTag.categorical]⟩ :
        ColSpec).valueCount = some (k, k) :=
  sparse_materialization_iff
    [("a", ⟨0, true, false, some (3, 3), [ColTag.categorical]⟩)]
    ⟨[(0, ["a"])], ["a"], [("a", 3)], ["a"]⟩ "a"
    ⟨0, true, false, some (3, 3), [ColTag.categorical]⟩
    (by simp) rfl (by simp)

/-- C2: `_to_sparse_tensor` raises iff the maximum per-row sequence length
observed in the batch (from the offsets differences) exceeds the configured
limit; when it raises, no tensor is produced (no `ok` result) and the error
message is exactly exactly the message of the source naming the configured limit and the
observed maximum; otherwise it returns the built tensor. -/
theorem to_sparse_tensor_spec (seqLimit : Nat) (values offsets : List Nat) :
    ((∃ e, to_sparse_tensor seqLimit values offsets = .error e) ↔
      get_max_seq_len (diff_offsets offsets) > seqLimit) ∧
    (get_max_seq_len (diff_offsets offsets) > seqLimit →
      to_sparse_tensor seqLimit values offsets =
        .error (seq_err_msg seqLimit
          (get_max_seq_len (diff_offsets offsets))) ∧
      ∀ t, to_sparse_tensor seqLimit values offsets ≠ .ok t) ∧
    (get_max_seq_len (diff_offsets offsets) ≤ seqLimit →
      to_sparse_tensor seqLimit values offsets =
        .ok (build_sparse_tensor values offsets seqLimit)) ∧
    (∃ s1 s2 s3 : String,
      seq_err_msg seqLimit (get_max_seq_len (diff_offsets offsets)) =
        s1 ++ toString seqLimit ++ s2 ++
          toString (get_max_seq_len (diff_offsets offsets)) ++ s3) := by
  unfold to_sparse_tensor
  by_cases hgt : get_max_seq_len (diff_offsets offsets) > seqLimit
  · rw [if_pos hgt]
    refine ⟨⟨fun _ => hgt, fun _ => ⟨_, rfl⟩⟩, fun _ => ⟨rfl, by simp⟩,
      fun hle => absurd hgt (by omega), ?_⟩
    exact ⟨"The default sequence length has been configured " ++ "to ",
      " but the " ++ "largest sequence in this batch have ", " length", by
        simp only [seq_err_msg, String.append_assoc]⟩
  · rw [if_neg hgt]
    refine ⟨⟨fun ⟨e, he⟩ => absurd he (by simp), fun h => absurd h hgt⟩,
      fun h => absurd h hgt, fun _ => rfl, ?_⟩
    exact ⟨"The default sequence length has been configured " ++ "to ",
      " but the " ++ "largest sequence in this batch have ", " length", by
        simp only [seq_err_msg, String.append_assoc]⟩

/-- C2 witness: the theorem applied to a batch with offsets `[0, 6, 7]`
(observed maximum row length 6) under configured limit 5. -/
theorem to_sparse_tensor_spec_witness :
    ((∃ e, to_sparse_tensor 5 [1, 2, 3, 4, 5, 6, 7] [0, 6, 7] = .error e) ↔
      get_max_seq_len (diff_offsets [0, 6, 7]) > 5) ∧
    (get_max_seq_len (diff_offsets [0, 6, 7]) > 5 →
      to_sparse_tensor 5 [1, 2, 3, 4, 5, 6, 7] [0, 6, 7] =
        .error (seq_err_msg 5 (get_max_seq_len (diff_offsets [0, 6, 7]))) ∧
      ∀ t, to_sparse_tensor 5 [1, 2, 3, 4, 5, 6, 7] [0, 6, 7] ≠ .ok t) ∧
    (get_max_seq_len (diff_offsets [0, 6, 7]) ≤ 5 →
      to_sparse_tensor 5 [1, 2, 3, 4, 5, 6, 7] [0, 6, 7] =
        .ok (build_sparse_tensor [1, 2, 3, 4, 5, 6, 7] [0, 6, 7] 5)) ∧
    (∃ s1 s2 s3 : String,
      seq_err_msg 5 (get_max_seq_len (diff_offsets [0, 6, 7])) =
        s1 ++ toString 5 ++ s2 ++
          toString (get_max_seq_len (diff_offsets [0, 6, 7])) ++ s3) :=
  to_sparse_tensor_spec 5 [1, 2, 3, 4, 5, 6, 7] [0, 6, 7]

/-- C7 witness: the amended theorem applied to a one-column schema whose
dense list column lacks a `value_count`. -/
theorem loader_init_validation_witness :
    (∃ e, loader_init [("a", ⟨0, true, false, none, [ColTag.other]⟩)] =
      .error e) ↔
      ([("a", (⟨0, true, false, none, [ColTag.other]⟩ : ColSpec))] :
        List (String × ColSpec)) = [] ∨
      ∃ p ∈ ([("a", (⟨0, true, false, none, [ColTag.other]⟩ : ColSpec))] :
          List (String × ColSpec)),
        p.2.isList = true ∧ p.2.isRagged = false ∧ p.2.valueCount = none :=
  loader_init_validation [("a", ⟨0, true, false, none, [ColTag.other]⟩)]

/-- C9 witness: the theorem applied to a concrete running state. -/
theorem stop_idempotent_epoch_reset_witness :
    stopFn (stopFn (⟨some 1, false, [], some [], 42⟩ :
      LoaderState Nat Nat)) =
      stopFn (⟨some 1, false, [], some [], 42⟩ : LoaderState Nat Nat) ∧
    (iterFn (stopFn (⟨some 1, false, [], some [], 42⟩ :
      LoaderState Nat Nat))).numRowsProcessed = 0 :=
  stop_idempotent_epoch_reset (⟨some 1, false, [], some [], 42⟩ :
    LoaderState Nat Nat)

end Dataloader

